import Mathlib

/-!
Verification of the Vietnamese PDF book extraction pipeline
(src/books/pdf_processing/extract_pdf.py and process_books.py).

Text is modelled as `List Char`.  Python regular-expression operations used
by the source are translated into executable Lean functions on `List Char`:
each definition follows the corresponding Python statement.  Notes on the
regex translation:
* `\s` (for `str` patterns) matches the Unicode whitespace set, modelled by
  `isWs` below.
* `\d` is modelled by the ASCII digit range (Python additionally accepts
  non-ASCII decimal digits; every input occurring in this development is
  ASCII-digit based).
* `.` matches every character except a newline; `$` (without MULTILINE)
  matches at the end of the string or before a final newline.  Both
  `detect_chapter` and `detect_section` strip their argument before pattern
  matching, so a final newline never occurs there.
-/

namespace Aisha

set_option maxRecDepth 8192

/-- Python regex `\s` / `str.strip` whitespace class (Unicode whitespace). -/
def isWs (c : Char) : Bool :=
  let n := c.toNat
  n == 32 || n == 9 || n == 10 || n == 13 || n == 11 || n == 12 ||
  n == 28 || n == 29 || n == 30 || n == 31 || n == 133 || n == 160 ||
  n == 5760 || (8192 ≤ n && n ≤ 8202) || n == 8232 || n == 8233 ||
  n == 8239 || n == 8287 || n == 12288

/-- Python regex `\d`, restricted to the ASCII decimal digits. -/
def isAsciiDigit (c : Char) : Bool :=
  48 ≤ c.toNat && c.toNat ≤ 57

/-- The ASCII uppercase range `[A-Z]` used by the section pattern. -/
def isUpperAscii (c : Char) : Bool :=
  65 ≤ c.toNat && c.toNat ≤ 90

/-- The class `[IVXLCDM]` under `re.IGNORECASE`. -/
def isRomanCI (c : Char) : Bool :=
  c == 'I' || c == 'V' || c == 'X' || c == 'L' || c == 'C' || c == 'D' ||
  c == 'M' || c == 'i' || c == 'v' || c == 'x' || c == 'l' || c == 'c' ||
  c == 'd' || c == 'm'

/-- The character class `[\s\.:]` of the chapter/section separator. -/
def sepClass (c : Char) : Bool :=
  isWs c || c == '.' || c == ':'

/-- The character class `[\.\s]` of the numbered-chapter fallback pattern. -/
def dotWs (c : Char) : Bool :=
  isWs c || c == '.'

/-- Case folding used to model `re.IGNORECASE`: ASCII letters plus the
uppercase Vietnamese letters occurring in the source's pattern literals
(`CHƯƠNG`, `PHẦN`, `BÀI`). -/
def lowerPy (c : Char) : Char :=
  if 65 ≤ c.toNat ∧ c.toNat ≤ 90 then Char.ofNat (c.toNat + 32)
  else if c = 'Ư' then 'ư'
  else if c = 'Ơ' then 'ơ'
  else if c = 'Ầ' then 'ầ'
  else if c = 'À' then 'à'
  else c

/-- Python `str.lstrip()`: drop leading whitespace. -/
def lstrip (l : List Char) : List Char :=
  l.dropWhile isWs

/-- Python `str.rstrip()`: drop trailing whitespace. -/
def rstrip : List Char → List Char
  | [] => []
  | c :: cs =>
    if rstrip cs = [] then (if isWs c then [] else [c])
    else c :: rstrip cs

/-- Python `str.strip()`: drop whitespace at both ends. -/
def stripWs (l : List Char) : List Char :=
  rstrip (lstrip l)

/-- Python `str.split('\n')` (text has no trailing separator handling;
splitting the empty string yields one empty field, as in Python). -/
def splitNl : List Char → List (List Char)
  | [] => [[]]
  | c :: cs =>
    if c = '\n' then [] :: splitNl cs
    else
      match splitNl cs with
      | [] => [[c]]
      | h :: t => (c :: h) :: t

/-- Python `'\n'.join`. -/
def joinNl : List (List Char) → List Char
  | [] => []
  | [l] => l
  | l :: ls => l ++ '\n' :: joinNl ls

/-- Worker for `re.sub(r'\s+', ' ', text)`: the flag records whether the
previous character belonged to a whitespace run already replaced. -/
def collapseWsAux : Bool → List Char → List Char
  | _, [] => []
  | prevWs, c :: cs =>
    if isWs c then
      if prevWs then collapseWsAux true cs
      else ' ' :: collapseWsAux true cs
    else c :: collapseWsAux false cs

/-- Model of `re.sub(r'\s+', ' ', text)`: every maximal whitespace run is
replaced by a single space. -/
def collapseWs (l : List Char) : List Char :=
  collapseWsAux false l

/-- Shared tail of the header patterns: `\d+\s*$` after the leading
whitespace has been dropped — one-or-more digits followed by whitespace
only. -/
def digitsThenWs (l : List Char) : Bool :=
  !(l.takeWhile isAsciiDigit).isEmpty && (l.dropWhile isAsciiDigit).all isWs

/-- Does a whole line match `^\s*\d+\s*$`? -/
def matchesNumLine (l : List Char) : Bool :=
  digitsThenWs (l.dropWhile isWs)

/-- Does a whole line match `^\s*<w>\s+\d+\s*$` (case-sensitive literal
`w`, used with `w = "Page"` and `w = "Trang"`)? -/
def matchesLabelNum (w : List Char) (l : List Char) : Bool :=
  let r0 := l.dropWhile isWs
  if w.isPrefixOf r0 then
    match r0.drop w.length with
    | [] => false
    | c :: cs => isWs c && digitsThenWs (cs.dropWhile isWs)
  else false

/-- Apply a transformation to each `'\n'`-separated line of a text, as a
`re.MULTILINE` whole-line substitution does. -/
def mapLines (f : List Char → List Char) (x : List Char) : List Char :=
  joinNl ((splitNl x).map f)

/-- Model of `re.sub(r'^\s*\d+\s*$', '', text, flags=re.MULTILINE)`.
Inside `clean_text` this step runs after the whitespace collapse, so its
argument never contains a newline. -/
def stripNumLines (x : List Char) : List Char :=
  mapLines (fun l => if matchesNumLine l then [] else l) x

/-- Model of `re.sub(r'^\s*<w>\s+\d+\s*$', '', text, flags=re.MULTILINE)`.
Inside `clean_text` this step runs after the whitespace collapse, so its
argument never contains a newline. -/
def stripLabelLines (w : List Char) (x : List Char) : List Char :=
  mapLines (fun l => if matchesLabelNum w l then [] else l) x

/-- Remainder of the text after the last newline of its leading whitespace
run (used to model the extent of one `\n\s*\n\s*\n+` match). -/
def afterBlankRun (l : List Char) : List Char :=
  ((l.takeWhile isWs).reverse.takeWhile (fun c => !(c == '\n'))).reverse ++
    l.dropWhile isWs

theorem length_afterBlankRun_lt (l : List Char) (h : '\n' ∈ l.takeWhile isWs) :
    (afterBlankRun l).length < l.length := by
  have hsplit : (l.takeWhile isWs).length + (l.dropWhile isWs).length = l.length := by
    conv_rhs => rw [← List.takeWhile_append_dropWhile (p := isWs) (l := l)]
    exact (List.length_append _ _).symm
  have hmem : '\n' ∈ (l.takeWhile isWs).reverse := by simpa using h
  have hlt : ((l.takeWhile isWs).reverse.takeWhile (fun c => !(c == '\n'))).length
      < (l.takeWhile isWs).reverse.length := by
    revert hmem
    generalize (l.takeWhile isWs).reverse = m
    intro hmem
    induction m with
    | nil => cases hmem
    | cons a as ih =>
      by_cases ha : a = '\n'
      · subst ha; simp [List.takeWhile]
      · have hmem2 : '\n' ∈ as := by
          cases hmem with
          | head => exact absurd rfl ha
          | tail _ h2 => exact h2
        simp only [List.takeWhile_cons, List.length_cons]
        have hb : (!(a == '\n')) = true := by simp [ha]
        rw [hb]
        simpa using Nat.succ_lt_succ (ih hmem2)
  have := List.length_reverse (l.takeWhile isWs)
  simp only [afterBlankRun, List.length_append, List.length_reverse]
  omega

/-- Worker for the blank-line collapse, structurally recursive on a fuel
argument so that the kernel can evaluate it; `length_afterBlankRun_lt`
shows that a fuel equal to the input length never runs out. -/
def collapseBlankAux : Nat → List Char → List Char
  | 0, l => l
  | _ + 1, [] => []
  | fuel + 1, c :: cs =>
    if c = '\n' ∧ 3 ≤ ((c :: cs).takeWhile isWs).count '\n' then
      '\n' :: '\n' :: collapseBlankAux fuel (afterBlankRun (c :: cs))
    else
      c :: collapseBlankAux fuel cs

/-- Model of `re.sub(r'\n\s*\n\s*\n+', '\n\n', text)`.  A match starts at a
newline whose surrounding whitespace run contains at least three newlines;
the (greedy) match extends through the last newline of that run and is
replaced by two newlines.  Inside `clean_text` this step runs after the
whitespace collapse, so its argument never contains a newline and the
substitution is the identity. -/
def collapseBlank (l : List Char) : List Char :=
  collapseBlankAux l.length l

/-- Worker for the substring count, structurally recursive on a fuel
argument so that the kernel can evaluate it; a fuel equal to the input
length suffices because each step consumes at least one character. -/
def countSubAux (needle : List Char) : Nat → List Char → Nat
  | 0, _ => 0
  | _ + 1, [] => 0
  | fuel + 1, c :: rest =>
    if needle.isPrefixOf (c :: rest) then
      1 + countSubAux needle fuel (List.drop (needle.length - 1) rest)
    else countSubAux needle fuel rest

/-- Python substring-occurrence count `str.count` (non-overlapping,
left-to-right scan). -/
def count_sub (needle : List Char) (hay : List Char) : Nat :=
  countSubAux needle hay.length hay

/-- Model of `VietnamesePDFExtractor.clean_text`.  The steps are, in source
order: early return for empty input; `re.sub(r'\s+', ' ', text)`;
removal of whole lines matching `^\s*\d+\s*$`, `^\s*Page\s+\d+\s*$` and
`^\s*Trang\s+\d+\s*$` (MULTILINE); `re.sub(r'\n\s*\n\s*\n+', '\n\n', text)`;
`text.strip()`. -/
def clean_text (input : List Char) : List Char :=
  if input.isEmpty then []
  else
    let t1 := collapseWs input
    let t2 := stripNumLines t1
    let t3 := stripLabelLines ("Page".data) t2
    let t4 := stripLabelLines ("Trang".data) t3
    let t5 := collapseBlank t4
    stripWs t5

/-- Tail `[\s\.:]*(.*)$` of the word chapter patterns, applied after the
number group: the greedy separator run is consumed, and the rest must be
newline-free for `.*` to reach the end anchor (the matched line is
stripped, so no final newline exists).  Returns capture group 3. -/
def chapterWordTail (r2 : List Char) : Option (List Char) :=
  let rest := r2.dropWhile sepClass
  if rest.all (fun c => !(c == '\n')) then some rest else none

/-- Model of `re.match` for one of the four word chapter patterns
`^(<w>)\s+(\d+|[IVXLCDM]+)[\s\.:]*(.*)$` with `re.IGNORECASE`, where `w`
is the lowercase pattern word.  Returns the three capture groups. -/
def matchChapWord (w : List Char) (l : List Char) :
    Option (List Char × List Char × List Char) :=
  if ((l.take w.length).map lowerPy) == w then
    match l.drop w.length with
    | [] => none
    | c :: cs =>
      if isWs c then
        let r1 := cs.dropWhile isWs
        let digs := r1.takeWhile isAsciiDigit
        if !digs.isEmpty then
          match chapterWordTail (r1.dropWhile isAsciiDigit) with
          | some g3 => some (l.take w.length, digs, g3)
          | none => none
        else
          let rom := r1.takeWhile isRomanCI
          if !rom.isEmpty then
            match chapterWordTail (r1.dropWhile isRomanCI) with
            | some g3 => some (l.take w.length, rom, g3)
            | none => none
          else none
      else none
  else none

/-- Backtracking search for `(.{1,50})$` after the greedy `[\.\s]+` run of
length `j`: the largest separator length whose remainder has length 1–50
and is newline-free wins; the separator must keep at least one character. -/
def p5Search (t : List Char) : Nat → Option (List Char)
  | 0 => none
  | j + 1 =>
    let r := t.drop (j + 1)
    if 1 ≤ r.length && r.length ≤ 50 && r.all (fun c => !(c == '\n')) then some r
    else p5Search t j

/-- Model of `re.match` for the fallback pattern `^(\d+)[\.\s]+(.{1,50})$`
(numbered chapters such as "1. Introduction").  Returns groups 1 and 2. -/
def matchChapNum (l : List Char) : Option (List Char × List Char) :=
  let d := l.takeWhile isAsciiDigit
  if d.isEmpty then none
  else
    let t := l.dropWhile isAsciiDigit
    match p5Search t (t.takeWhile dotWs).length with
    | some g2 => some (d, g2)
    | none => none

/-- Title assembly of `detect_chapter` for the word patterns:
`f"{type} {num}"`, plus `f": {title}"` when the stripped group 3 is
non-empty. -/
def chapTitle3 (g1 g2 g3 : List Char) : List Char :=
  let t := stripWs g3
  g1 ++ ' ' :: g2 ++ (if t.isEmpty then [] else ':' :: ' ' :: t)

/-- Model of `VietnamesePDFExtractor.detect_chapter`: strip the line,
reject empty or longer than 100 characters, then try the five chapter
patterns in order (all with `re.IGNORECASE`); word patterns have three
groups, the numbered fallback two. -/
def detect_chapter (line : List Char) : Option (List Char × List Char) :=
  let l := stripWs line
  if l.isEmpty || 100 < l.length then none
  else
    match matchChapWord ("chương".data) l with
    | some (g1, g2, g3) => some ("CHAPTER".data, chapTitle3 g1 g2 g3)
    | none =>
    match matchChapWord ("chapter".data) l with
    | some (g1, g2, g3) => some ("CHAPTER".data, chapTitle3 g1 g2 g3)
    | none =>
    match matchChapWord ("phần".data) l with
    | some (g1, g2, g3) => some ("CHAPTER".data, chapTitle3 g1 g2 g3)
    | none =>
    match matchChapWord ("bài".data) l with
    | some (g1, g2, g3) => some ("CHAPTER".data, chapTitle3 g1 g2 g3)
    | none =>
    match matchChapNum l with
    | some (g1, g2) => some ("CHAPTER".data, g1 ++ ' ' :: g2)
    | none => none

/-- Model of `re.match` for the section pattern
`^(\d+\.\d+)[\s\.:]+(.*)$` (no IGNORECASE).  Returns groups 1 and 2. -/
def matchSecNum (l : List Char) : Option (List Char × List Char) :=
  let d1 := l.takeWhile isAsciiDigit
  if d1.isEmpty then none
  else
    match l.dropWhile isAsciiDigit with
    | [] => none
    | c :: r =>
      if c == '.' then
        let d2 := r.takeWhile isAsciiDigit
        if d2.isEmpty then none
        else
          match r.dropWhile isAsciiDigit with
          | [] => none
          | c2 :: _ =>
            if sepClass c2 then
              let rest := (r.dropWhile isAsciiDigit).dropWhile sepClass
              if rest.all (fun c3 => !(c3 == '\n')) then
                some (d1 ++ '.' :: d2, rest)
              else none
            else none
      else none

/-- Model of `re.match` for the section pattern `^([A-Z][A-Z\s]{2,30})$`
(ALL CAPS headings): the single group must cover the whole line, so the
line has 3 to 31 characters, starts with an ASCII uppercase letter and
continues with uppercase letters or whitespace. -/
def matchSecCaps (l : List Char) : Option (List Char) :=
  match l with
  | [] => none
  | c :: cs =>
    if isUpperAscii c && cs.all (fun x => isUpperAscii x || isWs x) &&
        2 ≤ cs.length && cs.length ≤ 30 then
      some l
    else none

/-- Model of `VietnamesePDFExtractor.detect_section`: strip the line,
reject empty or longer than 80 characters, then try the numbered and the
all-caps section patterns in order. -/
def detect_section (line : List Char) : Option (List Char × List Char) :=
  let l := stripWs line
  if l.isEmpty || 80 < l.length then none
  else
    match matchSecNum l with
    | some (g1, g2) => some ("SECTION".data, g1 ++ ' ' :: g2)
    | none =>
    match matchSecCaps l with
    | some g => some ("SECTION".data, g)
    | none => none

/-- One iteration of the line loop of `extract_text_from_pdf`
(lines 121–141): strip the line, skip it when empty, otherwise classify
with chapter precedence; a chapter marker is appended only when the
detected title differs from the tracked `current_chapter`. -/
def lineStep (st : Option (List Char)) (line : List Char) :
    Option (List Char) × List (List Char) :=
  let l := stripWs line
  if l.isEmpty then (st, [])
  else
    match detect_chapter l with
    | some m =>
      if st ≠ some m.2 then (some m.2, [("[CHAPTER:".data) ++ m.2 ++ ("]".data)])
      else (st, [])
    | none =>
      match detect_section l with
      | some m => (st, [("[SECTION:".data) ++ m.2 ++ ("]".data)])
      | none => (st, [l])

/-- The line loop folded over the lines of one page. -/
def pageLines (st : Option (List Char)) (lines : List (List Char)) :
    Option (List Char) × List (List Char) :=
  lines.foldl
    (fun acc line =>
      let r := lineStep acc.1 line
      (r.1, acc.2 ++ r.2))
    (st, [])

/-- One iteration of the page loop of `extract_text_from_pdf`
(lines 104–147): skip pages whose raw text is absent or empty, clean the
text, skip if cleaning left nothing, split into lines, run the line loop,
and emit `[PAGE:n]`, the page content and one empty separator line when
the page retained anything. -/
def pageStep (st : Option (List Char)) (pageNum : Nat)
    (rawText : Option (List Char)) : Option (List Char) × List (List Char) :=
  match rawText with
  | none => (st, [])
  | some t =>
    if t.isEmpty then (st, [])
    else
      let cleaned := clean_text t
      if cleaned.isEmpty then (st, [])
      else
        let r := pageLines st (splitNl cleaned)
        if r.2.isEmpty then (r.1, [])
        else
          (r.1, (("[PAGE:".data) ++ (Nat.repr pageNum).data ++ ("]".data))
            :: r.2 ++ [[]])

/-- Worker for the page loop: pages are enumerated from a given number. -/
def extractAux (st : Option (List Char)) (pageNum : Nat) :
    List (Option (List Char)) → List (List Char)
  | [] => []
  | p :: ps =>
    let r := pageStep st pageNum p
    r.2 ++ extractAux r.1 (pageNum + 1) ps

/-- The annotated content built by `extract_text_from_pdf` for a document
whose pages yield the given raw texts (`none` models
`page.extract_text()` returning `None`); pages are numbered from 1 and
`current_chapter` starts as `None`. -/
def extract_content (pages : List (Option (List Char))) : List (List Char) :=
  extractAux none 1 pages

/-- Sequencing of the per-page extraction results inside the `try` block:
a page whose text extraction raises aborts the whole body. -/
def sequencePages :
    List (Except (List Char) (Option (List Char))) →
      Except (List Char) (List (Option (List Char)))
  | [] => .ok []
  | r :: rs =>
    match r with
    | .error e => .error e
    | .ok p =>
      match sequencePages rs with
      | .error e => .error e
      | .ok ps => .ok (p :: ps)

/-- Model of `VietnamesePDFExtractor.extract_text_from_pdf` as seen by its
caller.  Exceptions are modelled as `Except.error` values: `openR` is the
outcome of `pdfplumber.open` (a list of per-page extraction outcomes on
success), `writeR` the outcome of writing the joined content.  The
enclosing `try`/`except` turns every error into the result `False`;
`True` is returned only after the write completed. -/
def extract_text_from_pdf
    (openR : Except (List Char) (List (Except (List Char) (Option (List Char)))))
    (writeR : Except (List Char) Unit) : Bool :=
  match openR with
  | .error _ => false
  | .ok pageRs =>
    match sequencePages pageRs with
    | .error _ => false
    | .ok pages =>
      let _content := extract_content pages
      match writeR with
      | .error _ => false
      | .ok _ => true

/-- Model of `BookProcessor.count_pages_in_text`: on a read failure the
count defaults to 1; otherwise it is the number of `[PAGE:` occurrences,
with 0 replaced by 1. -/
def count_pages_in_text (readR : Except (List Char) (List Char)) : Nat :=
  match readR with
  | .error _ => 1
  | .ok content =>
    let page_count := count_sub ("[PAGE:".data) content
    if 0 < page_count then page_count else 1

/-- First index at which `needle` occurs in the list, Python `str.find`. -/
def findIdx (needle : List Char) : List Char → Option Nat
  | [] => if needle.isEmpty then some 0 else none
  | c :: rest =>
    if needle.isPrefixOf (c :: rest) then some 0
    else (findIdx needle rest).map (· + 1)

/-- Title extraction of `extract_book_info`: locate the first `[CHAPTER:`
token, then the next `]` from that position; the title is the slice
between. -/
def findTitle (content : List Char) : Option (List Char) :=
  match findIdx ("[CHAPTER:".data) content with
  | none => none
  | some i =>
    let rest := content.drop i
    match findIdx ("]".data) rest with
    | none => none
    | some j => some ((rest.take j).drop 9)

/-- Description collection of `extract_book_info`: the first at most three
lines that are non-blank after stripping and do not start with `[`,
stripped. -/
def collectDesc : Nat → List (List Char) → List (List Char)
  | 0, _ => []
  | _ + 1, [] => []
  | n + 1, l :: ls =>
    if !(stripWs l).isEmpty && !(("[".data).isPrefixOf l) then
      stripWs l :: collectDesc n ls
    else collectDesc (n + 1) ls

/-- Python `' '.join`. -/
def joinSpace : List (List Char) → List Char
  | [] => []
  | [l] => l
  | l :: ls => l ++ ' ' :: joinSpace ls

/-- Book metadata record assembled by `extract_book_info`. -/
structure BookInfo where
  title : Option (List Char)
  chapter_count : Nat
  description : List Char
deriving DecidableEq

/-- Model of `BookProcessor.extract_book_info`: on a read failure the
record is empty; otherwise the title comes from the first chapter marker,
the chapter count is the number of `[CHAPTER:` occurrences, and the
description is the first at most three non-marker lines joined by spaces,
cut to 200 characters with a trailing ellipsis when any line was found. -/
def extract_book_info (readR : Except (List Char) (List Char)) : BookInfo :=
  match readR with
  | .error _ => ⟨none, 0, []⟩
  | .ok content =>
    let title := findTitle content
    let chapter_count := count_sub ("[CHAPTER:".data) content
    let descLines := collectDesc 3 (splitNl content)
    let description :=
      if descLines.isEmpty then []
      else (joinSpace descLines).take 200 ++ ("...".data)
    ⟨title, chapter_count, description⟩

/-- Recognizer for chapter marker lines in produced content. -/
def isChapterMarker (l : List Char) : Bool :=
  ("[CHAPTER:".data).isPrefixOf l

theorem mem_collapseWsAux {c : Char} :
    ∀ (b : Bool) (l : List Char), c ∈ collapseWsAux b l →
      isWs c = false ∨ c = ' ' := by
  intro b l
  induction l generalizing b with
  | nil => intro h; cases h
  | cons a as ih =>
    intro h
    by_cases ha : isWs a = true
    · cases b with
      | true =>
        simp only [collapseWsAux, ha] at h
        exact ih true h
      | false =>
        simp [collapseWsAux, ha] at h
        rcases h with h1 | h2
        · exact Or.inr h1
        · exact ih true h2
    · simp only [collapseWsAux, ha, if_false] at h
      rcases List.mem_cons.mp h with h1 | h2
      · subst h1; exact Or.inl (by simpa using ha)
      · exact ih false h2

theorem nl_not_mem_collapseWs (l : List Char) : '\n' ∉ collapseWs l := by
  intro h
  rcases mem_collapseWsAux false l h with h1 | h1
  · exact absurd h1 (by decide)
  · exact absurd h1 (by decide)

theorem splitNl_of_not_mem {l : List Char} (h : '\n' ∉ l) : splitNl l = [l] := by
  induction l with
  | nil => rfl
  | cons c cs ih =>
    have hc : ¬ c = '\n' := fun hc => h (hc ▸ List.mem_cons_self c cs)
    have hcs : '\n' ∉ cs := fun h2 => h (List.mem_cons_of_mem c h2)
    simp only [splitNl, hc, if_false, ih hcs]

theorem mapLines_no_nl (f : List Char → List Char) {x : List Char}
    (h : '\n' ∉ x) : mapLines f x = f x := by
  simp only [mapLines, splitNl_of_not_mem h, List.map_cons, List.map_nil, joinNl]

theorem collapseBlankAux_no_nl :
    ∀ (fuel : Nat) (l : List Char), '\n' ∉ l → collapseBlankAux fuel l = l := by
  intro fuel
  induction fuel with
  | zero => intro l _; rfl
  | succ n ih =>
    intro l h
    cases l with
    | nil => rfl
    | cons c cs =>
      have hc : ¬ c = '\n' := fun hc => h (hc ▸ List.mem_cons_self c cs)
      have hcs : '\n' ∉ cs := fun h2 => h (List.mem_cons_of_mem c h2)
      have hcond : ¬ (c = '\n' ∧ 3 ≤ ((c :: cs).takeWhile isWs).count '\n') :=
        fun hh => hc hh.1
      simp only [collapseBlankAux, ih cs hcs, if_neg hcond]

theorem collapseBlank_no_nl {l : List Char} (h : '\n' ∉ l) :
    collapseBlank l = l :=
  collapseBlankAux_no_nl l.length l h

theorem rstrip_sublist (l : List Char) : List.Sublist (rstrip l) l := by
  induction l with
  | nil => exact List.Sublist.refl _
  | cons c cs ih =>
    by_cases h : rstrip cs = []
    · by_cases hw : isWs c = true
      · simp only [rstrip, h, if_true, hw]
        exact List.nil_sublist _
      · simp only [rstrip, h, if_true, hw, if_false]
        exact (List.nil_sublist cs).cons₂ c
    · simp only [rstrip, h, if_false]
      exact ih.cons₂ c

theorem not_mem_stripWs {c : Char} {l : List Char} (h : c ∉ l) :
    c ∉ stripWs l := by
  intro hmem
  exact h (((rstrip_sublist (lstrip l)).trans (List.dropWhile_sublist isWs)).mem hmem)

/-- Predicate: the first character, if any, is not whitespace. -/
def headNotWs (l : List Char) : Bool :=
  match l with
  | [] => true
  | c :: _ => !isWs c

theorem headNotWs_lstrip (l : List Char) : headNotWs (lstrip l) = true := by
  induction l with
  | nil => rfl
  | cons c cs ih =>
    by_cases h : isWs c = true
    · simpa [lstrip, List.dropWhile_cons, h] using ih
    · simp [lstrip, List.dropWhile_cons, h, headNotWs]

theorem lstrip_of_headNotWs {l : List Char} (h : headNotWs l = true) :
    lstrip l = l := by
  cases l with
  | nil => rfl
  | cons c cs =>
    simp only [headNotWs, Bool.not_eq_true'] at h
    simp [lstrip, List.dropWhile_cons, h]

theorem rstrip_idem (l : List Char) : rstrip (rstrip l) = rstrip l := by
  induction l with
  | nil => rfl
  | cons c cs ih =>
    by_cases h : rstrip cs = []
    · by_cases hw : isWs c = true
      · simp [rstrip, h, hw]
      · simp [rstrip, h, hw]
    · have h2 : rstrip (c :: cs) = c :: rstrip cs := by
        simp only [rstrip, if_neg h]
      rw [h2]
      have hne : rstrip (rstrip cs) ≠ [] := by rw [ih]; exact h
      have h3 : rstrip (c :: rstrip cs) = c :: rstrip (rstrip cs) := by
        simp only [rstrip, if_neg hne]
      rw [h3, ih]

theorem headNotWs_rstrip {l : List Char} (h : headNotWs l = true) :
    headNotWs (rstrip l) = true := by
  cases l with
  | nil => rfl
  | cons c cs =>
    by_cases h2 : rstrip cs = []
    · by_cases hw : isWs c = true
      · simp [rstrip, h2, hw, headNotWs]
      · simp [rstrip, h2, hw, headNotWs]
    · simp only [rstrip, h2, if_false]
      simpa [headNotWs] using h

theorem stripWs_idem (l : List Char) : stripWs (stripWs l) = stripWs l := by
  have h1 : headNotWs (rstrip (lstrip l)) = true :=
    headNotWs_rstrip (headNotWs_lstrip l)
  simp only [stripWs, lstrip_of_headNotWs h1, rstrip_idem]

theorem stripWs_clean_text (p : List Char) :
    stripWs (clean_text p) = clean_text p := by
  by_cases h : p.isEmpty
  · simp [clean_text, h]; rfl
  · simp only [clean_text, h, if_false]
    exact stripWs_idem _

theorem matchesLabelNum_nil (w : List Char) (hw : ¬ w = []) :
    matchesLabelNum w [] = false := by
  cases w with
  | nil => exact absurd rfl hw
  | cons a as => rfl

theorem stripNumLines_no_nl {x : List Char} (h : '\n' ∉ x) :
    stripNumLines x = if matchesNumLine x then [] else x := by
  simp only [stripNumLines]
  rw [mapLines_no_nl _ h]

theorem stripLabelLines_no_nl (w : List Char) {x : List Char} (h : '\n' ∉ x) :
    stripLabelLines w x = if matchesLabelNum w x then [] else x := by
  simp only [stripLabelLines]
  rw [mapLines_no_nl _ h]

theorem stripNumLines_nil : stripNumLines [] = [] := by
  rw [stripNumLines_no_nl (List.not_mem_nil _)]
  decide

theorem stripLabelLines_nil (w : List Char) (hw : ¬ w = []) :
    stripLabelLines w [] = [] := by
  rw [stripLabelLines_no_nl w (List.not_mem_nil _), matchesLabelNum_nil w hw]
  rfl

theorem clean_text_pipeline (p : List Char) (hp : p.isEmpty = false) :
    clean_text p = stripWs (collapseBlank (stripLabelLines ("Trang".data)
      (stripLabelLines ("Page".data) (stripNumLines (collapseWs p))))) := by
  simp only [clean_text, hp, Bool.false_eq_true, if_false]

/-- Structure of a `clean_text` result: either empty, or the stripped
whitespace collapse of the input, in which case no header pattern matched
the collapsed text. -/
theorem clean_text_spec (p : List Char) :
    clean_text p = [] ∨
      (clean_text p = stripWs (collapseWs p) ∧
       matchesNumLine (collapseWs p) = false ∧
       matchesLabelNum ("Page".data) (collapseWs p) = false ∧
       matchesLabelNum ("Trang".data) (collapseWs p) = false) := by
  by_cases hp : p.isEmpty
  · left; simp [clean_text, hp]
  · have hp2 : p.isEmpty = false := by simpa using hp
    have h1 : '\n' ∉ collapseWs p := nl_not_mem_collapseWs p
    rw [clean_text_pipeline p hp2]
    by_cases hnum : matchesNumLine (collapseWs p) = true
    · left
      rw [stripNumLines_no_nl h1, if_pos hnum,
        stripLabelLines_nil _ (by decide), stripLabelLines_nil _ (by decide),
        collapseBlank_no_nl (List.not_mem_nil _)]
      rfl
    · rw [stripNumLines_no_nl h1, if_neg hnum]
      by_cases hpage : matchesLabelNum ("Page".data) (collapseWs p) = true
      · left
        rw [stripLabelLines_no_nl _ h1, if_pos hpage,
          stripLabelLines_nil _ (by decide), collapseBlank_no_nl (List.not_mem_nil _)]
        rfl
      · rw [stripLabelLines_no_nl _ h1, if_neg hpage]
        by_cases htrang : matchesLabelNum ("Trang".data) (collapseWs p) = true
        · left
          rw [stripLabelLines_no_nl _ h1, if_pos htrang,
            collapseBlank_no_nl (List.not_mem_nil _)]
          rfl
        · right
          rw [stripLabelLines_no_nl _ h1, if_neg htrang, collapseBlank_no_nl h1]
          exact ⟨rfl, by simpa using hnum, by simpa using hpage, by simpa using htrang⟩

theorem clean_text_no_nl (p : List Char) : '\n' ∉ clean_text p := by
  rcases clean_text_spec p with h | ⟨h, _⟩
  · rw [h]; exact List.not_mem_nil _
  · rw [h]; exact not_mem_stripWs (nl_not_mem_collapseWs p)

theorem detect_chapter_nil : detect_chapter [] = none := by decide

theorem lineStep_chapter_eq (st : Option (List Char)) (line : List Char)
    (m : List Char × List Char) (hm : detect_chapter (stripWs line) = some m) :
    lineStep st line =
      (some m.2, if st = some m.2 then []
        else [("[CHAPTER:".data) ++ m.2 ++ ("]".data)]) := by
  have hne : ¬ (stripWs line).isEmpty = true := by
    intro hh
    rw [List.isEmpty_iff.mp hh, detect_chapter_nil] at hm
    exact Option.noConfusion hm
  simp only [lineStep, hm, if_neg hne]
  by_cases hst : st = some m.2
  · rw [if_neg (by simpa using hst), hst, if_pos rfl]
  · rw [if_pos (by simpa using hst), if_neg hst]

theorem lineStep_body_eq (st : Option (List Char)) (line : List Char)
    (hc : detect_chapter (stripWs line) = none)
    (hs : detect_section (stripWs line) = none)
    (hne : (stripWs line).isEmpty = false) :
    lineStep st line = (st, [stripWs line]) := by
  simp only [lineStep, hc, hs, hne, Bool.false_eq_true, if_false]

theorem pageLines_single (st : Option (List Char)) (l : List Char) :
    pageLines st [l] = ((lineStep st l).1, (lineStep st l).2) := by
  simp [pageLines]

theorem isPrefixOf_append_self :
    ∀ w r : List Char, w.isPrefixOf (w ++ r) = true := by
  intro w r
  induction w with
  | nil => simp [List.isPrefixOf]
  | cons c cs ih => simp [List.isPrefixOf, ih]

/-- C4: classification of a non-empty trimmed line is mutually exclusive
with chapter precedence: a chapter match yields only a chapter marker (or
nothing, under suppression) and section detection is never consulted; a
line matching neither detector is emitted verbatim as body text.  The
closed conjunct exhibits a line matching both a chapter and a section
pattern that is classified as a chapter. -/
theorem c4_classification_precedence :
    (∀ (st : Option (List Char)) (line : List Char) (m : List Char × List Char),
      detect_chapter (stripWs line) = some m →
        lineStep st line =
          (some m.2, if st = some m.2 then []
            else [("[CHAPTER:".data) ++ m.2 ++ ("]".data)])) ∧
    (∀ (st : Option (List Char)) (line : List Char),
      detect_chapter (stripWs line) = none →
      detect_section (stripWs line) = none →
      (stripWs line).isEmpty = false →
        lineStep st line = (st, [stripWs line])) ∧
    (detect_chapter ("CHAPTER V".data) = some (("CHAPTER".data), ("CHAPTER V".data)) ∧
     detect_section ("CHAPTER V".data) = some (("SECTION".data), ("CHAPTER V".data)) ∧
     lineStep none ("CHAPTER V".data) =
       (some ("CHAPTER V".data), [("[CHAPTER:CHAPTER V]".data)])) :=
  ⟨lineStep_chapter_eq, lineStep_body_eq, by decide, by decide, by decide⟩

theorem c4_witness :
    lineStep none ("Xin chào".data) = (none, [("Xin chào".data)]) :=
  c4_classification_precedence.2.1 none ("Xin chào".data)
    (by decide) (by decide) (by decide)

/-- C3: a chapter marker is emitted exactly when the detected title
differs from the tracked chapter state (which the emission then updates),
and the state is carried across pages: two consecutive pages whose text
yields the identical chapter detection produce exactly one chapter marker
in the whole output. -/
theorem c3_chapter_suppression :
    (∀ (st : Option (List Char)) (line : List Char) (m : List Char × List Char),
      detect_chapter (stripWs line) = some m →
        ((lineStep st line).2 = [("[CHAPTER:".data) ++ m.2 ++ ("]".data)] ↔
          st ≠ some m.2)) ∧
    (∀ (p : List Char) (m : List Char × List Char),
      detect_chapter (clean_text p) = some m →
        (extract_content [some p, some p]).countP isChapterMarker = 1) := by
  constructor
  · intro st line m hm
    rw [lineStep_chapter_eq st line m hm]
    by_cases hst : st = some m.2
    · simp [hst]
    · simp [hst]
  · intro p m hm
    have hcne : clean_text p ≠ [] := by
      intro h0
      rw [h0, detect_chapter_nil] at hm
      exact Option.noConfusion hm
    have hpne : p.isEmpty = false := by
      by_cases hE : p.isEmpty = true
      · exact absurd (by simp [clean_text, hE]) hcne
      · simpa using hE
    have hsplit : splitNl (clean_text p) = [clean_text p] :=
      splitNl_of_not_mem (clean_text_no_nl p)
    have hm2 : detect_chapter (stripWs (clean_text p)) = some m := by
      rw [stripWs_clean_text]; exact hm
    have hcneE : (clean_text p).isEmpty = false := by
      cases hE : (clean_text p).isEmpty
      · rfl
      · exact absurd (List.isEmpty_iff.mp hE) hcne
    have hstep1 : lineStep none (clean_text p) =
        (some m.2, [("[CHAPTER:".data) ++ m.2 ++ ("]".data)]) := by
      rw [lineStep_chapter_eq none (clean_text p) m hm2, if_neg (by simp)]
    have hstep2 : lineStep (some m.2) (clean_text p) = (some m.2, []) := by
      rw [lineStep_chapter_eq (some m.2) (clean_text p) m hm2, if_pos rfl]
    have hpage1 : pageStep none 1 (some p) =
        (some m.2,
          (("[PAGE:".data) ++ (Nat.repr 1).data ++ ("]".data)) ::
            [("[CHAPTER:".data) ++ m.2 ++ ("]".data)] ++ [[]]) := by
      simp only [pageStep, hpne, Bool.false_eq_true, if_false, hcneE,
        hsplit, pageLines_single, hstep1]
      rfl
    have hpage2 : pageStep (some m.2) 2 (some p) = (some m.2, []) := by
      simp only [pageStep, hpne, Bool.false_eq_true, if_false, hcneE,
        hsplit, pageLines_single, hstep2]
      rfl
    have hcontent : extract_content [some p, some p] =
        [("[PAGE:".data) ++ (Nat.repr 1).data ++ ("]".data),
         ("[CHAPTER:".data) ++ m.2 ++ ("]".data), []] := by
      simp only [extract_content, extractAux, hpage1, hpage2]
      simp
    have h1 : isChapterMarker (("[PAGE:".data) ++ (Nat.repr 1).data ++ ("]".data))
        = false := by decide
    have h2 : isChapterMarker (("[CHAPTER:".data) ++ m.2 ++ ("]".data)) = true := by
      simp only [isChapterMarker, List.append_assoc]
      exact isPrefixOf_append_self _ _
    have h3 : isChapterMarker ([] : List Char) = false := by decide
    rw [hcontent, List.countP_cons, List.countP_cons, List.countP_cons,
      List.countP_nil, h1, h2, h3]
    rfl

theorem c3_witness :
    (extract_content [some ("Chương 5".data), some ("Chương 5".data)]).countP
      isChapterMarker = 1 :=
  c3_chapter_suppression.2 ("Chương 5".data)
    (("CHAPTER".data), ("Chương 5".data)) (by decide)

/-- C5 (amended): the length guards of the detectors apply to the
stripped line: a line whose stripped form exceeds 100 characters is never
a chapter, and one whose stripped form exceeds 80 characters is never a
section. -/
theorem c5_length_guards (line : List Char) :
    (100 < (stripWs line).length → detect_chapter line = none) ∧
    (80 < (stripWs line).length → detect_section line = none) := by
  constructor
  · intro h
    simp [detect_chapter, h]
  · intro h
    simp [detect_section, h]

theorem c5_witness :
    detect_chapter (List.replicate 101 'a') = none ∧
    detect_section (List.replicate 101 'a') = none :=
  ⟨(c5_length_guards (List.replicate 101 'a')).1 (by decide),
   (c5_length_guards (List.replicate 101 'a')).2 (by decide)⟩

/-- C5 is false as stated for raw (untrimmed) lines: the detectors strip
their argument before the length guard, so a 105-character line that is
"Chapter 1" padded with 96 spaces is classified as a chapter, and a
90-character line of three uppercase letters padded with spaces is
classified as a section. -/
theorem c5_counterexample :
    (("Chapter 1".data ++ List.replicate 96 ' ').length = 105 ∧
      detect_chapter ("Chapter 1".data ++ List.replicate 96 ' ') =
        some (("CHAPTER".data), ("Chapter 1".data))) ∧
    (("AAA".data ++ List.replicate 87 ' ').length = 90 ∧
      detect_section ("AAA".data ++ List.replicate 87 ' ') =
        some (("SECTION".data), ("AAA".data))) := by decide

theorem upper_not_digit {c : Char} (h : isUpperAscii c = true) :
    isAsciiDigit c = false := by
  cases hd : isAsciiDigit c with
  | false => rfl
  | true =>
    exfalso
    simp only [isUpperAscii, Bool.and_eq_true, decide_eq_true_eq] at h
    simp only [isAsciiDigit, Bool.and_eq_true, decide_eq_true_eq] at hd
    omega

/-- C6 (amended): a trimmed line made of uppercase ASCII letters and
whitespace, starting with an uppercase letter and matching no chapter
pattern, is classified as a section by the capitalization heuristic
exactly when its length is between 3 and 31 characters (the regex
`[A-Z][A-Z\s]{2,30}` admits one more character than the claimed 30). -/
theorem c6_caps_heuristic (c : Char) (cs : List Char)
    (hc : isUpperAscii c = true)
    (hall : ∀ x ∈ cs, isUpperAscii x = true ∨ isWs x = true)
    (hstrip : stripWs (c :: cs) = c :: cs)
    (_hchap : detect_chapter (c :: cs) = none) :
    ((detect_section (c :: cs)).isSome = true ↔
      3 ≤ (c :: cs).length ∧ (c :: cs).length ≤ 31) := by
  have hd : isAsciiDigit c = false := upper_not_digit hc
  have hsecnum : matchSecNum (c :: cs) = none := by
    simp [matchSecNum, List.takeWhile_cons, hd]
  have hallb : cs.all (fun x => isUpperAscii x || isWs x) = true := by
    rw [List.all_eq_true]
    intro x hx
    rcases hall x hx with h | h <;> simp [h]
  have hcaps : matchSecCaps (c :: cs) =
      if 2 ≤ cs.length ∧ cs.length ≤ 30 then some (c :: cs) else none := by
    simp only [matchSecCaps, hc, hallb, Bool.true_and]
    by_cases h2 : 2 ≤ cs.length
    · by_cases h30 : cs.length ≤ 30
      · simp [h2, h30]
      · simp [h2, h30]
    · simp [h2]
  by_cases hlen : 80 < (c :: cs).length
  · have hval : detect_section (c :: cs) = none := by
      simp only [detect_section, hstrip]
      rw [if_pos (by rw [Bool.or_eq_true, decide_eq_true_eq]; exact Or.inr hlen)]
    rw [hval]
    simp only [Option.isSome_none, Bool.false_eq_true, false_iff]
    simp only [List.length_cons] at hlen ⊢
    omega
  · have hval : detect_section (c :: cs) =
        if 2 ≤ cs.length ∧ cs.length ≤ 30
          then some (("SECTION".data), c :: cs) else none := by
      simp only [detect_section, hstrip]
      rw [if_neg (by
        rw [Bool.or_eq_true, decide_eq_true_eq]
        rintro (h1 | h1)
        · exact absurd h1 (by simp)
        · exact hlen h1)]
      simp only [hsecnum, hcaps]
      by_cases hP : 2 ≤ cs.length ∧ cs.length ≤ 30
      · rw [if_pos hP, if_pos hP]
      · rw [if_neg hP, if_neg hP]
    rw [hval]
    by_cases hP : 2 ≤ cs.length ∧ cs.length ≤ 30
    · rw [if_pos hP]
      simp only [Option.isSome_some, true_iff, List.length_cons]
      omega
    · rw [if_neg hP]
      simp only [Option.isSome_none, Bool.false_eq_true, false_iff,
        List.length_cons]
      omega

theorem c6_witness : (detect_section ("HELLO WORLD".data)).isSome = true :=
  (c6_caps_heuristic 'H' ("ELLO WORLD".data) (by decide) (by decide)
    (by decide) (by decide)).mpr (by decide)

/-- C6 is false as stated: a 31-character all-uppercase line is matched by
the all-caps section pattern (while matching no chapter pattern). -/
theorem c6_counterexample :
    detect_chapter (List.replicate 31 'A') = none ∧
    detect_section (List.replicate 31 'A') =
      some (("SECTION".data), List.replicate 31 'A') := by decide

/-- C8: the extractor converts every internal failure (unreadable source,
per-page decode error, write error) into the result `false` and returns
`true` exactly when opening, page decoding and the final write all
succeed; being a total boolean function of the effect outcomes, it never
propagates an exception to its caller. -/
theorem c8_never_raises (openR : Except (List Char)
      (List (Except (List Char) (Option (List Char)))))
    (writeR : Except (List Char) Unit) :
    extract_text_from_pdf openR writeR = true ↔
      ∃ pageRs pages, openR = Except.ok pageRs ∧
        sequencePages pageRs = Except.ok pages ∧ writeR = Except.ok () := by
  cases openR with
  | error e => simp [extract_text_from_pdf]
  | ok pageRs =>
    cases hs : sequencePages pageRs with
    | error e => simp [extract_text_from_pdf, hs]
    | ok pages =>
      cases writeR with
      | error e => simp [extract_text_from_pdf, hs]
      | ok u =>
        cases u
        simp only [extract_text_from_pdf, hs]
        constructor
        · intro _
          exact ⟨pageRs, pages, rfl, hs, by trivial⟩
        · intro _
          trivial

/-- C9: the batch counters are pure token counts: `chapter_count` is the
number of occurrences of `[CHAPTER:` and `page_count` the number of
occurrences of `[PAGE:` (with zero replaced by 1) — never the highest
page number, as the sparse-page conjunct shows. -/
theorem c9_metadata_counts :
    (∀ content : List Char,
      count_pages_in_text (.ok content) =
        if count_sub ("[PAGE:".data) content = 0 then 1
        else count_sub ("[PAGE:".data) content) ∧
    (∀ content : List Char,
      (extract_book_info (.ok content)).chapter_count =
        count_sub ("[CHAPTER:".data) content) ∧
    count_pages_in_text (.ok ("[PAGE:1]\nx\n\n[PAGE:3]\ny".data)) = 2 ∧
    (extract_book_info (.ok ("[CHAPTER:A]\nx\n[CHAPTER:B]\ny".data))).chapter_count
      = 2 := by
  refine ⟨?_, fun content => rfl, by decide, by decide⟩
  intro content
  simp only [count_pages_in_text]
  by_cases h : count_sub ("[PAGE:".data) content = 0
  · simp [h]
  · simp [h, Nat.pos_of_ne_zero h]

/-- C1 is false as stated: the whitespace collapse in `clean_text` merges
the two raw lines of the page into one, so the extractor emits a single
merged chapter marker and no separate body line.  This theorem evaluates
the code on the claimed input and exhibits the divergence. -/
theorem c1_code_eval :
    extract_content [some ("Chương 1: Mở đầu\nNội dung đầu tiên.".data)] =
      [("[PAGE:1]".data),
       ("[CHAPTER:Chương 1: Mở đầu Nội dung đầu tiên.]".data),
       []] ∧
    extract_content [some ("Chương 1: Mở đầu\nNội dung đầu tiên.".data)] ≠
      [("[PAGE:1]".data), ("[CHAPTER:Chương 1: Mở đầu]".data),
       ("Nội dung đầu tiên.".data), []] := by decide

/-- C2 is false as stated: `clean_text` collapses all whitespace
(including newlines) before the per-line page-number patterns run, so the
standalone line "12" is not removed but merged into the surrounding
text. -/
theorem c2_code_eval :
    clean_text ("abc\n12\ndef".data) = ("abc 12 def".data) ∧
    count_sub ("12".data) (clean_text ("abc\n12\ndef".data)) = 1 := by decide

/-- C10: `clean_text` output never contains a newline — the initial
whitespace collapse replaces every whitespace run (newlines included) by
one space — so the line split in the page pipeline yields exactly one
line per page. -/
theorem c10_single_line (s : List Char) :
    '\n' ∉ clean_text s ∧ splitNl (clean_text s) = [clean_text s] :=
  ⟨clean_text_no_nl s, splitNl_of_not_mem (clean_text_no_nl s)⟩

/-- Every whitespace character of the list is a plain space. -/
def wsOnlySpace (l : List Char) : Prop :=
  ∀ c ∈ l, isWs c = true → c = ' '

/-- No two adjacent characters are both whitespace. -/
def noAdjWs : List Char → Prop
  | [] => True
  | [_] => True
  | a :: b :: r => ¬(isWs a = true ∧ isWs b = true) ∧ noAdjWs (b :: r)

/-- Predicate: the last character, if any, is not whitespace. -/
def lastNotWs (l : List Char) : Bool :=
  match l.getLast? with
  | none => true
  | some c => !isWs c

theorem rstrip_cons_of_ne_nil (c : Char) {cs : List Char}
    (h : rstrip cs ≠ []) : rstrip (c :: cs) = c :: rstrip cs := by
  simp only [rstrip, if_neg h]

theorem noAdjWs_tail {c : Char} {cs : List Char} (h : noAdjWs (c :: cs)) :
    noAdjWs cs := by
  cases cs with
  | nil => trivial
  | cons d ds => exact h.2

theorem noAdjWs_cons_of_headNot {a : Char} {x : List Char}
    (hx : noAdjWs x) (hh : headNotWs x = true) : noAdjWs (a :: x) := by
  cases x with
  | nil => trivial
  | cons d ds =>
    refine ⟨?_, hx⟩
    simp only [headNotWs, Bool.not_eq_true'] at hh
    intro hcontra
    rw [hh] at hcontra
    exact Bool.false_ne_true hcontra.2

theorem noAdjWs_cons_of_notWs {a : Char} {x : List Char}
    (hx : noAdjWs x) (ha : isWs a = false) : noAdjWs (a :: x) := by
  cases x with
  | nil => trivial
  | cons d ds =>
    refine ⟨?_, hx⟩
    intro hcontra
    rw [ha] at hcontra
    exact Bool.false_ne_true hcontra.1

theorem wsOnlySpace_of_sublist {l₁ l₂ : List Char}
    (hs : List.Sublist l₁ l₂) (h : wsOnlySpace l₂) : wsOnlySpace l₁ :=
  fun c hc hw => h c (hs.mem hc) hw

theorem collapseWsAux_props (l : List Char) :
    noAdjWs (collapseWsAux false l) ∧
      (noAdjWs (collapseWsAux true l) ∧
        headNotWs (collapseWsAux true l) = true) := by
  induction l with
  | nil => exact ⟨trivial, trivial, rfl⟩
  | cons c cs ih =>
    by_cases hc : isWs c = true
    · refine ⟨?_, ?_, ?_⟩
      · simp only [collapseWsAux, hc, if_true]
        exact noAdjWs_cons_of_headNot ih.2.1 ih.2.2
      · simp only [collapseWsAux, hc, if_true]
        exact ih.2.1
      · simp only [collapseWsAux, hc, if_true]
        exact ih.2.2
    · have hc2 : isWs c = false := by simpa using hc
      have hfa : collapseWsAux false (c :: cs) = c :: collapseWsAux false cs := by
        simp [collapseWsAux, hc2]
      have hta : collapseWsAux true (c :: cs) = c :: collapseWsAux false cs := by
        simp [collapseWsAux, hc2]
      refine ⟨?_, ?_, ?_⟩
      · rw [hfa]
        exact noAdjWs_cons_of_notWs ih.1 hc2
      · rw [hta]
        exact noAdjWs_cons_of_notWs ih.1 hc2
      · rw [hta]
        simp [headNotWs, hc2]

theorem collapseWsAux_id (l : List Char) (hsp : wsOnlySpace l)
    (hadj : noAdjWs l) :
    collapseWsAux false l = l ∧
      (headNotWs l = true → collapseWsAux true l = l) := by
  induction l with
  | nil => exact ⟨rfl, fun _ => rfl⟩
  | cons c cs ih =>
    have hsp2 : wsOnlySpace cs := fun x hx hw => hsp x (List.mem_cons_of_mem c hx) hw
    have hadj2 : noAdjWs cs := noAdjWs_tail hadj
    have ih2 := ih hsp2 hadj2
    by_cases hc : isWs c = true
    · have hcsp : c = ' ' := hsp c (List.mem_cons_self c cs) hc
      have hcs_head : headNotWs cs = true := by
        cases cs with
        | nil => rfl
        | cons d ds =>
          simp only [headNotWs, Bool.not_eq_true']
          cases hd : isWs d
          · rfl
          · exact absurd ⟨hc, hd⟩ hadj.1
      constructor
      · subst hcsp
        simp [collapseWsAux, hc, ih2.2 hcs_head]
      · intro hh
        simp only [headNotWs, Bool.not_eq_true'] at hh
        rw [hh] at hc
        exact absurd hc (by decide)
    · have hc2 : isWs c = false := by simpa using hc
      constructor
      · simp [collapseWsAux, hc2, ih2.1]
      · intro _
        simp [collapseWsAux, hc2, ih2.1]

theorem rstrip_eq_nil_all_ws : ∀ {l : List Char}, rstrip l = [] →
    l.all isWs = true := by
  intro l
  induction l with
  | nil => intro _; rfl
  | cons c cs ih =>
    intro h
    by_cases h2 : rstrip cs = []
    · by_cases hw : isWs c = true
      · simp [hw, ih h2]
      · simp only [rstrip, h2, if_true, hw, if_false] at h
        exact absurd h (by simp)
    · simp only [rstrip, h2, if_false] at h
      exact absurd h (by simp)

theorem lstrip_all_ws {l : List Char} (h : l.all isWs = true) :
    lstrip l = [] := by
  induction l with
  | nil => rfl
  | cons c cs ih =>
    simp only [List.all_cons, Bool.and_eq_true] at h
    simp only [lstrip, List.dropWhile_cons, h.1, if_true]
    exact ih h.2

theorem rstrip_decomp (l : List Char) :
    ∃ t, l = rstrip l ++ t ∧ t.all isWs = true := by
  induction l with
  | nil => exact ⟨[], rfl, rfl⟩
  | cons c cs ih =>
    by_cases h : rstrip cs = []
    · have hcs : cs.all isWs = true := rstrip_eq_nil_all_ws h
      by_cases hw : isWs c = true
      · refine ⟨c :: cs, ?_, ?_⟩
        · simp [rstrip, h, hw]
        · simp [hw, hcs]
      · refine ⟨cs, ?_, hcs⟩
        simp [rstrip, h, hw]
    · obtain ⟨t, hdec, ht⟩ := ih
      refine ⟨t, ?_, ht⟩
      simp only [rstrip, h, if_false, List.cons_append]
      rw [← hdec]

theorem rstrip_cons_head {c : Char} {cs : List Char}
    (h : rstrip (c :: cs) ≠ []) : ∃ es, rstrip (c :: cs) = c :: es := by
  by_cases h2 : rstrip cs = []
  · by_cases hw : isWs c = true
    · exact absurd (by simp [rstrip, h2, hw]) h
    · exact ⟨[], by simp [rstrip, h2, hw]⟩
  · exact ⟨rstrip cs, by simp [rstrip, h2]⟩

theorem noAdjWs_lstrip {l : List Char} (h : noAdjWs l) :
    noAdjWs (lstrip l) := by
  induction l with
  | nil => trivial
  | cons c cs ih =>
    by_cases hw : isWs c = true
    · simp only [lstrip, List.dropWhile_cons, hw, if_true]
      exact ih (noAdjWs_tail h)
    · simp only [lstrip, List.dropWhile_cons, hw, if_false]
      exact h

theorem noAdjWs_rstrip {l : List Char} (h : noAdjWs l) :
    noAdjWs (rstrip l) := by
  induction l with
  | nil => trivial
  | cons c cs ih =>
    by_cases h2 : rstrip cs = []
    · by_cases hw : isWs c = true
      · simp only [rstrip, h2, if_true, hw]
        trivial
      · simp only [rstrip, h2, if_true, hw, if_false]
        trivial
    · simp only [rstrip, h2, if_false]
      have hr : noAdjWs (rstrip cs) := ih (noAdjWs_tail h)
      cases cs with
      | nil => exact absurd rfl h2
      | cons d ds =>
        obtain ⟨es, hes⟩ := rstrip_cons_head h2
        rw [hes] at hr ⊢
        exact ⟨fun hcontra => h.1 hcontra, hr⟩

theorem lastNotWs_rstrip (l : List Char) : lastNotWs (rstrip l) = true := by
  induction l with
  | nil => rfl
  | cons c cs ih =>
    by_cases h2 : rstrip cs = []
    · by_cases hw : isWs c = true
      · simp [rstrip, h2, hw, lastNotWs]
      · simp [rstrip, h2, hw, lastNotWs, List.getLast?_singleton]
    · simp only [rstrip, h2, if_false]
      obtain ⟨es, hes⟩ := List.exists_cons_of_ne_nil h2
      obtain ⟨fs, hfs⟩ := hes
      rw [hfs] at ih ⊢
      simpa [lastNotWs, List.getLast?_cons_cons] using ih

theorem rstrip_of_lastNotWs : ∀ {l : List Char}, lastNotWs l = true →
    rstrip l = l := by
  intro l
  induction l with
  | nil => intro _; rfl
  | cons c cs ih =>
    intro h
    cases hcs : cs with
    | nil =>
      rw [hcs] at h
      simp only [lastNotWs, List.getLast?_singleton, Bool.not_eq_true'] at h
      simp [rstrip, h]
    | cons d ds =>
      rw [hcs] at h ih
      have h2 : lastNotWs (d :: ds) = true := by
        simpa [lastNotWs, List.getLast?_cons_cons] using h
      have h3 : rstrip (d :: ds) = d :: ds := ih h2
      have h4 : rstrip (d :: ds) ≠ [] := by rw [h3]; simp
      rw [rstrip_cons_of_ne_nil c h4, h3]

theorem stripWs_of_ends {l : List Char} (hh : headNotWs l = true)
    (hl : lastNotWs l = true) : stripWs l = l := by
  rw [stripWs, lstrip_of_headNotWs hh, rstrip_of_lastNotWs hl]

theorem ws_not_digit {c : Char} (h : isWs c = true) : isAsciiDigit c = false := by
  cases hd : isAsciiDigit c with
  | false => rfl
  | true =>
    exfalso
    simp only [isAsciiDigit, Bool.and_eq_true, decide_eq_true_eq] at hd
    simp only [isWs, Bool.or_eq_true, beq_iff_eq, Bool.and_eq_true,
      decide_eq_true_eq] at h
    omega

theorem allWs_takeWhile_digit {t : List Char} (ht : t.all isWs = true) :
    t.takeWhile isAsciiDigit = [] := by
  cases t with
  | nil => rfl
  | cons c cs =>
    have hc : isWs c = true := by
      simp only [List.all_cons, Bool.and_eq_true] at ht
      exact ht.1
    simp [List.takeWhile_cons, ws_not_digit hc]

theorem dropWhile_digit_append_allWs {t : List Char} (ht : t.all isWs = true) :
    ∀ cs : List Char, ((cs ++ t).dropWhile isAsciiDigit).all isWs =
      (cs.dropWhile isAsciiDigit).all isWs := by
  intro cs
  induction cs with
  | nil =>
    simp only [List.nil_append, List.dropWhile_nil]
    cases t with
    | nil => rfl
    | cons c cs2 =>
      have hc : isWs c = true := by
        simp only [List.all_cons, Bool.and_eq_true] at ht
        exact ht.1
      simp [List.dropWhile_cons, ws_not_digit hc, ht]
  | cons d ds ih =>
    by_cases hd : isAsciiDigit d = true
    · simp [List.cons_append, List.dropWhile_cons, hd, ih]
    · simp only [List.cons_append, List.dropWhile_cons, hd, Bool.false_eq_true,
        if_false, List.all_cons]
      rw [List.all_append, ht]
      simp

theorem digitsThenWs_append_ws (a t : List Char) (ht : t.all isWs = true) :
    digitsThenWs (a ++ t) = digitsThenWs a := by
  cases a with
  | nil =>
    simp [digitsThenWs, allWs_takeWhile_digit ht]
  | cons c cs =>
    by_cases hd : isAsciiDigit c = true
    · simp only [List.cons_append, digitsThenWs, List.takeWhile_cons,
        List.dropWhile_cons, hd, if_true]
      simp only [List.isEmpty_cons, Bool.not_false, Bool.true_and]
      exact dropWhile_digit_append_allWs ht cs
    · simp [digitsThenWs, List.takeWhile_cons, hd]

theorem dropWhile_ws_append (cs t : List Char) :
    (cs ++ t).dropWhile isWs =
      if cs.dropWhile isWs = [] then t.dropWhile isWs
      else cs.dropWhile isWs ++ t := by
  induction cs with
  | nil => simp
  | cons c cs2 ih =>
    by_cases hc : isWs c = true
    · simp only [List.cons_append, List.dropWhile_cons, hc, if_true]
      exact ih
    · simp [List.dropWhile_cons, hc]

theorem isPrefixOf_length_le :
    ∀ {w x : List Char}, w.isPrefixOf x = true → w.length ≤ x.length := by
  intro w
  induction w with
  | nil => intro x _; simp
  | cons c cs ih =>
    intro x h
    cases x with
    | nil => exact absurd h (by simp [List.isPrefixOf])
    | cons d ds =>
      simp only [List.isPrefixOf, Bool.and_eq_true] at h
      simp only [List.length_cons]
      exact Nat.succ_le_succ (ih h.2)

theorem isPrefixOf_append_ws :
    ∀ (w a t : List Char), w.all (fun c => !isWs c) = true →
      t.all isWs = true → w.isPrefixOf (a ++ t) = w.isPrefixOf a := by
  intro w
  induction w with
  | nil => intro a t _ _; simp [List.isPrefixOf]
  | cons c cs ih =>
    intro a t hwf ht
    have hwf2 : cs.all (fun x => !isWs x) = true := by
      simp only [List.all_cons, Bool.and_eq_true] at hwf
      exact hwf.2
    have hcnw : isWs c = false := by
      simp only [List.all_cons, Bool.and_eq_true, Bool.not_eq_true'] at hwf
      exact hwf.1
    cases a with
    | nil =>
      simp only [List.nil_append]
      have hr : (c :: cs).isPrefixOf ([] : List Char) = false := rfl
      rw [hr]
      cases t with
      | nil => rfl
      | cons d ds =>
        have hd : isWs d = true := by
          simp only [List.all_cons, Bool.and_eq_true] at ht
          exact ht.1
        have hne : (c == d) = false := by
          rw [beq_eq_false_iff_ne]
          intro hcd
          rw [hcd, hd] at hcnw
          exact absurd hcnw (by decide)
        simp [List.isPrefixOf, hne]
    | cons a0 as =>
      simp only [List.cons_append, List.isPrefixOf, List.append_eq]
      rw [ih as t hwf2 ht]

theorem matchesLabelNum_append_ws (w : List Char) {a t : List Char}
    (ht : t.all isWs = true) (hw : w ≠ [])
    (hwf : w.all (fun c => !isWs c) = true) (ha : headNotWs a = true) :
    matchesLabelNum w (a ++ t) = matchesLabelNum w a := by
  cases a with
  | nil =>
    rw [List.nil_append, matchesLabelNum_nil w hw]
    have h0 : t.dropWhile isWs = [] := by
      simpa [lstrip] using lstrip_all_ws ht
    simp only [matchesLabelNum, h0]
    cases w with
    | nil => exact absurd rfl hw
    | cons c cs => simp [List.isPrefixOf]
  | cons a0 as =>
    have ha0 : isWs a0 = false := by simpa [headNotWs] using ha
    have hL : ((a0 :: as) ++ t).dropWhile isWs = (a0 :: as) ++ t := by
      simp [List.dropWhile_cons, ha0]
    have hR : (a0 :: as).dropWhile isWs = a0 :: as := by
      simp [List.dropWhile_cons, ha0]
    simp only [matchesLabelNum, hL, hR]
    rw [isPrefixOf_append_ws w (a0 :: as) t hwf ht]
    by_cases hp : w.isPrefixOf (a0 :: as) = true
    · rw [if_pos hp, if_pos hp]
      have hlen : w.length ≤ (a0 :: as).length := isPrefixOf_length_le hp
      rw [List.drop_append_of_le_length hlen]
      cases hq : (a0 :: as).drop w.length with
      | nil =>
        rw [List.nil_append]
        cases t with
        | nil => rfl
        | cons c cs2 =>
          have hcs2 : cs2.all isWs = true := by
            simp only [List.all_cons, Bool.and_eq_true] at ht
            exact ht.2
          have h2 : cs2.dropWhile isWs = [] := by
            simpa [lstrip] using lstrip_all_ws hcs2
          simp [h2, digitsThenWs]
      | cons c cs2 =>
        simp only [List.cons_append]
        by_cases h0 : cs2.dropWhile isWs = []
        · rw [dropWhile_ws_append, if_pos h0, h0]
          have h3 : t.dropWhile isWs = [] := by
            simpa [lstrip] using lstrip_all_ws ht
          rw [h3]
        · rw [dropWhile_ws_append, if_neg h0,
            digitsThenWs_append_ws (cs2.dropWhile isWs) t ht]
    · rw [if_neg hp, if_neg hp]

theorem matchesNumLine_append_ws {a t : List Char} (ht : t.all isWs = true)
    (ha : headNotWs a = true) : matchesNumLine (a ++ t) = matchesNumLine a := by
  cases a with
  | nil =>
    simp only [List.nil_append]
    have h0 : t.dropWhile isWs = [] := by
      simpa [lstrip] using lstrip_all_ws ht
    simp [matchesNumLine, h0]
  | cons a0 as =>
    have ha0 : isWs a0 = false := by simpa [headNotWs] using ha
    simp only [matchesNumLine, List.cons_append, List.dropWhile_cons, ha0,
      Bool.false_eq_true, if_false]
    have h1 := digitsThenWs_append_ws (a0 :: as) t ht
    simpa [List.cons_append] using h1

theorem lstrip_idem (l : List Char) : lstrip (lstrip l) = lstrip l :=
  lstrip_of_headNotWs (headNotWs_lstrip l)

theorem matchesNumLine_lstrip (l : List Char) :
    matchesNumLine (lstrip l) = matchesNumLine l := by
  have h := lstrip_idem l
  simp only [lstrip] at h
  simp only [matchesNumLine, lstrip, h]

theorem matchesLabelNum_lstrip (w l : List Char) :
    matchesLabelNum w (lstrip l) = matchesLabelNum w l := by
  have h := lstrip_idem l
  simp only [lstrip] at h
  simp only [matchesLabelNum, lstrip, h]

theorem matchesNumLine_stripWs (l : List Char) :
    matchesNumLine (stripWs l) = matchesNumLine l := by
  obtain ⟨t, hdec, ht⟩ := rstrip_decomp (lstrip l)
  have ha : headNotWs (rstrip (lstrip l)) = true :=
    headNotWs_rstrip (headNotWs_lstrip l)
  have h1 : matchesNumLine (rstrip (lstrip l) ++ t) =
      matchesNumLine (rstrip (lstrip l)) := matchesNumLine_append_ws ht ha
  rw [stripWs, ← h1, ← hdec, matchesNumLine_lstrip]

theorem matchesLabelNum_stripWs (w l : List Char) (hw : w ≠ [])
    (hwf : w.all (fun c => !isWs c) = true) :
    matchesLabelNum w (stripWs l) = matchesLabelNum w l := by
  obtain ⟨t, hdec, ht⟩ := rstrip_decomp (lstrip l)
  have ha : headNotWs (rstrip (lstrip l)) = true :=
    headNotWs_rstrip (headNotWs_lstrip l)
  have h1 : matchesLabelNum w (rstrip (lstrip l) ++ t) =
      matchesLabelNum w (rstrip (lstrip l)) :=
    matchesLabelNum_append_ws w ht hw hwf ha
  rw [stripWs, ← h1, ← hdec, matchesLabelNum_lstrip]

/-- C7: the Text Normalizer is idempotent — `clean_text` applied to its
own output returns it unchanged, for every input string.  The output is
either empty or a stripped text whose whitespace is single interior
spaces and which matches none of the header patterns, and every stage of
`clean_text` is the identity on such texts. -/
theorem c7_normalizer_idempotent (s : List Char) :
    clean_text (clean_text s) = clean_text s := by
  rcases clean_text_spec s with h | ⟨h, hnum, hpage, htrang⟩
  · rw [h]
    rfl
  · by_cases hr : clean_text s = []
    · rw [hr]
      rfl
    · have hrE : (clean_text s).isEmpty = false := by
        cases hE : (clean_text s).isEmpty
        · rfl
        · exact absurd (List.isEmpty_iff.mp hE) hr
      have hnl : '\n' ∉ clean_text s := clean_text_no_nl s
      have hsp : wsOnlySpace (clean_text s) := by
        rw [h]
        refine wsOnlySpace_of_sublist
          ((rstrip_sublist _).trans (List.dropWhile_sublist _)) ?_
        intro c hc hw
        rcases mem_collapseWsAux false s hc with h1 | h1
        · exact absurd hw (by simp [h1])
        · exact h1
      have hadj : noAdjWs (clean_text s) := by
        rw [h, stripWs]
        exact noAdjWs_rstrip (noAdjWs_lstrip (collapseWsAux_props s).1)
      have hhead : headNotWs (clean_text s) = true := by
        rw [h, stripWs]
        exact headNotWs_rstrip (headNotWs_lstrip _)
      have hlast : lastNotWs (clean_text s) = true := by
        rw [h, stripWs]
        exact lastNotWs_rstrip _
      have hnum2 : matchesNumLine (clean_text s) = false := by
        rw [h, matchesNumLine_stripWs]
        exact hnum
      have hpage2 : matchesLabelNum ("Page".data) (clean_text s) = false := by
        rw [h, matchesLabelNum_stripWs _ _ (by decide) (by decide)]
        exact hpage
      have htrang2 : matchesLabelNum ("Trang".data) (clean_text s) = false := by
        rw [h, matchesLabelNum_stripWs _ _ (by decide) (by decide)]
        exact htrang
      rw [clean_text_pipeline _ hrE]
      rw [show collapseWs (clean_text s) = clean_text s from
        (collapseWsAux_id _ hsp hadj).1]
      rw [stripNumLines_no_nl hnl, if_neg (by simp [hnum2])]
      rw [stripLabelLines_no_nl _ hnl, if_neg (by simp [hpage2])]
      rw [stripLabelLines_no_nl _ hnl, if_neg (by simp [htrang2])]
      rw [collapseBlank_no_nl hnl]
      exact stripWs_of_ends hhead hlast

end Aisha
